import Mathlib

set_option maxRecDepth 40000

/-!
Shallow embedding of the quadax Romberg integrator (src/quadax/romberg.py and
src/quadax/utils.py) and verification of its specification claims.

Numeric values are modelled by exact rationals.  The transcendental primitives
used by the source (square root, pi, sinh, cosh, tanh, log, machine epsilon)
have no computable exact counterpart on `ℚ`, so they are supplied as an
explicit parameter record `RealOps`; every theorem is proved for an arbitrary
such record.  The IEEE special values masked by `wrap_func` do not exist in
exact arithmetic, so the finiteness test is constantly true here, and the
initial `err = inf` of the loop state is modelled by `Option ℚ` with `none`
standing for the infinite initial error.
-/

namespace Quadax

/-- Record of the real-analytic primitives the source gets from jax.numpy:
`sqrt` (the `** 0.5` in `_x_map_ninfinf`), `pi`, `sinh`, `cosh`, `tanh`,
`log`, and the machine epsilon `eps` of the float dtype. -/
structure RealOps : Type where
  sqrt : ℚ → ℚ
  pi : ℚ
  sinh : ℚ → ℚ
  cosh : ℚ → ℚ
  tanh : ℚ → ℚ
  log : ℚ → ℚ
  eps : ℚ

/-- Placeholder instantiation of `RealOps`, used only to evaluate witnesses at
concrete inputs whose control flow never consults these primitives. -/
def qOps : RealOps :=
  { sqrt := fun _ => 0, pi := 0, sinh := fun _ => 0, cosh := fun _ => 0,
    tanh := fun _ => 0, log := fun _ => 0, eps := 0 }

/-- An integration bound: a finite rational or one of the two IEEE infinities
(`np.inf` sentinels accepted by `romberg`). -/
inductive FBound : Type where
  | ninf
  | val (q : ℚ)
  | pinf
  deriving DecidableEq

/-- Strict order on bounds, as float comparison `a < b` behaves on ±inf. -/
def FBound.blt : FBound → FBound → Bool
  | FBound.ninf, FBound.ninf => false
  | FBound.ninf, _ => true
  | FBound.val _, FBound.ninf => false
  | FBound.val q, FBound.val r => decide (q < r)
  | FBound.val _, FBound.pinf => true
  | FBound.pinf, _ => false

/-- `jnp.isinf`. -/
def FBound.isinf : FBound → Bool
  | FBound.val _ => false
  | _ => true

/-- The rational value of a finite bound.  Infinite bounds yield a junk value;
the source only reads a bound as a number in dispatch branches where that
bound is finite. -/
def FBound.toQ : FBound → ℚ
  | FBound.val q => q
  | _ => 0

/-- `jnp.minimum` on bounds. -/
def bmin (a b : FBound) : FBound := if FBound.blt a b then a else b

/-- `jnp.maximum` on bounds. -/
def bmax (a b : FBound) : FBound := if FBound.blt a b then b else a

/-- `_x_map_linear` (utils.py): both bounds finite. -/
def _x_map_linear (x : ℚ) (a b : FBound) : ℚ × ℚ :=
  ((b.toQ + a.toQ) / 2 + (b.toQ - a.toQ) / 2 * x, (b.toQ - a.toQ) / 2)

/-- `_x_map_ninfinf` (utils.py): both bounds infinite; `** 0.5` is `ops.sqrt`. -/
def _x_map_ninfinf (ops : RealOps) (x : ℚ) (a b : FBound) : ℚ × ℚ :=
  (x * (1 / ops.sqrt (1 - x * x)), 1 / ops.sqrt (1 - x * x) / (1 - x * x))

/-- `_x_map_ainf` (utils.py): a finite, b = +inf. -/
def _x_map_ainf (x : ℚ) (a b : FBound) : ℚ × ℚ :=
  (a.toQ - 1 + 2 / (x + 1), 1 / 2 * (2 / (x + 1)) ^ 2)

/-- `_x_map_ninfb` (utils.py): a = -inf, b finite. -/
def _x_map_ninfb (x : ℚ) (a b : FBound) : ℚ × ℚ :=
  (b.toQ + 1 - 2 / (x + 1), 1 / 2 * (2 / (x + 1)) ^ 2)

/-- `map_interval` (utils.py): normalize bound order with a sign flag
`(-1) ** (a > b)`, pick the mapping case from the bitmask
`isinf(a) + 2 * isinf(b)`, and weight the integrand by the Jacobian. -/
def map_interval {A : Type} (ops : RealOps) (fn : ℚ → A → ℚ) (a b : FBound) :
    ℚ → A → ℚ :=
  let sgn : ℚ := if FBound.blt b a then -1 else 1
  let a2 := bmin a b
  let b2 := bmax a b
  let bitmask : ℕ := (if a2.isinf then 1 else 0) + 2 * (if b2.isinf then 1 else 0)
  fun x args =>
    let xw :=
      match bitmask with
      | 0 => _x_map_linear x a2 b2
      | 1 => _x_map_ninfb x a2 b2
      | 2 => _x_map_ainf x a2 b2
      | _ => _x_map_ninfinf ops x a2 b2
    sgn * xw.2 * fn xw.1 args

/-- `jnp.isfinite` on the model's values: every rational is finite, so the
mask in `wrap_func` is the identity in exact arithmetic. -/
def isfiniteQ (_ : ℚ) : Bool := true

/-- `wrap_func` (utils.py): bind the extra arguments and mask non-finite
evaluations to zero. -/
def wrap_func {A : Type} (fn : ℚ → A → ℚ) (args : A) : ℚ → ℚ :=
  fun x => if isfiniteQ (fn x args) then fn x args else 0

/-- The six entries of the `messages` dict (utils.py), in key order 0..5. -/
def messages : List String :=
  ["Algorithm terminated normally, desired tolerances assumed reached",
   "Maximum number of subdivisions allowed has been achieved. One can allow more subdivisions by increasing the value of max_ninter. However,if this yields no improvement it is advised to analyze the integrand in order to determine the integration difficulties. If the position of a local difficulty can be determined (e.g. singularity, discontinuity within the interval) one will probably gain from splitting up the interval at this point and calling the integrator on the sub-ranges. If possible, an appropriate special-purpose integrator should be used, which is designed for handling the type of difficulty involved.",
   "The occurrence of roundoff error is detected, which prevents the requested tolerance from being achieved. The error may be under-estimated.",
   "Extremely bad integrand behavior occurs at some points of the integration interval.",
   "The algorithm does not converge. Roundoff error is detected in the extrapolation table. It is assumed that the requested tolerance cannot be achieved, and that the returned result is the best which can be obtained.",
   "The integral is probably divergent, or slowly convergent."]

/-- `_decode_status` (utils.py) on the 5-bit statuses 0..31: status 0 maps to
the first message; otherwise the 5 low bits (the reversed `"\x7b:05b\x7d"`
string) are zipped against the first five dict values in key order and the
messages of the set bits are concatenated, each followed by two newlines. -/
def _decode_status (status : ℕ) : String :=
  if status = 0 then messages.get! 0
  else
    ((List.range 5).filter (fun i => status.testBit i)).foldl
      (fun msg i => msg ++ messages.get! i ++ "\n\n") ""

/-- `QuadratureInfo` (utils.py): diagnostics returned alongside the value.
`err = none` models the infinite initial error estimate. -/
structure QuadratureInfo : Type where
  err : Option ℚ
  neval : ℕ
  status : ℕ
  info : Option (ℕ → ℕ → ℚ)

/-- The loop-carried state `(result, n, neval, err)` of `romberg`. -/
structure RombergState : Type where
  result : ℕ → ℕ → ℚ
  n : ℕ
  neval : ℕ
  err : Option ℚ

/-- Functional update of one entry of the extrapolation table
(`result.at[i, j].set v`). -/
def tset (t : ℕ → ℕ → ℚ) (i j : ℕ) (v : ℚ) : ℕ → ℕ → ℚ :=
  fun x y => if x = i ∧ y = j then v else t x y

/-- `err > threshold` where `err` may be the infinite initial value. -/
def errGT : Option ℚ → ℚ → Bool
  | none, _ => true
  | some e, t => decide (t < e)

/-- Fuel-indexed runner for `jax.lax.fori_loop`: `foriAux body k i x`
applies `body` at indices `i, i+1, ..., i+k-1`. -/
def foriAux {B : Type} (body : ℕ → B → B) : ℕ → ℕ → B → B
  | 0, _, x => x
  | k + 1, i, x => foriAux body k (i + 1) (body i x)

/-- `jax.lax.fori_loop lo hi body x`. -/
def fori_loop {B : Type} (lo hi : ℕ) (body : ℕ → B → B) (x : B) : B :=
  foriAux body (hi - lo) lo x

/-- Body of the inner `sloop` of `romberg`: accumulate the new midpoint
samples `vfunc(a + h * (2 i - 1))` with canonical `a = -1`. -/
def sloopBody (vfunc : ℚ → ℚ) (h : ℚ) (i : ℕ) (s : ℚ) : ℚ :=
  s + vfunc (-1 + h * (2 * (i : ℚ) - 1))

/-- Body of the `mloop` of `romberg`: one Richardson extrapolation step for
row `n`, column `m`. -/
def mloopBody (n : ℕ) (m : ℕ) (result : ℕ → ℕ → ℚ) : ℕ → ℕ → ℚ :=
  tset result n m
    (result n (m - 1) + 1 / (4 ^ m - 1 : ℚ) * (result n (m - 1) - result (n - 1) (m - 1)))

/-- The table after the trapezoid update of level `s.n`:
`result.at[n, 0].set (0.5 * result[n-1, 0] + h * fori_loop 1 (2^n // 2 + 1) sloop 0)`
with `h = (b - a) / 2^n` on the canonical interval `a, b = -1, 1`. -/
def trapSet (vfunc : ℚ → ℚ) (s : RombergState) : ℕ → ℕ → ℚ :=
  tset s.result s.n 0
    (1 / 2 * s.result (s.n - 1) 0
      + 2 / 2 ^ s.n * fori_loop 1 (2 ^ s.n / 2 + 1) (sloopBody vfunc (2 / 2 ^ s.n)) 0)

/-- `ncond` (romberg.py): continue while `n < divmax + 1` and
`err > max(epsabs, epsrel * result[n, n])`. -/
def ncond (epsabs epsrel : ℚ) (divmax : ℕ) (s : RombergState) : Bool :=
  decide (s.n < divmax + 1) && errGT s.err (max epsabs (epsrel * s.result s.n s.n))

/-- `nloop` (romberg.py): one refinement level.  The trapezoid row update,
the evaluation-count update `neval += 2^n // 2`, then (with extrapolation)
the `mloop` over `m = 1..n` and `err = |result[n, n] - result[n, n-1]|`, or
(without) `err = |result[n, 0] - result[n-1, 0]|`; finally `n` advances. -/
def nloop (vfunc : ℚ → ℚ) (extrap : Bool) (s : RombergState) : RombergState :=
  if extrap then
    { result := fori_loop 1 (s.n + 1) (mloopBody s.n) (trapSet vfunc s)
      n := s.n + 1
      neval := s.neval + 2 ^ s.n / 2
      err := some |fori_loop 1 (s.n + 1) (mloopBody s.n) (trapSet vfunc s) s.n s.n
        - fori_loop 1 (s.n + 1) (mloopBody s.n) (trapSet vfunc s) s.n (s.n - 1)| }
  else
    { result := trapSet vfunc s
      n := s.n + 1
      neval := s.neval + 2 ^ s.n / 2
      err := some |trapSet vfunc s s.n 0 - trapSet vfunc s (s.n - 1) 0| }

/-- `jax.lax.while_loop cond body`, run with explicit fuel.  The fuel passed
by `rombergRun` (`divmax`) is exact: the loop index starts at 1, grows by one
per iteration, and `ncond` forces it below `divmax + 1`. -/
def whileLoop {S : Type} (cond : S → Bool) (body : S → S) : ℕ → S → S
  | 0, s => s
  | fuel + 1, s => if cond s then whileLoop cond body fuel (body s) else s

/-- The terminal loop state of `romberg` (romberg.py lines 92-134): map the
interval to `[-1, 1]`, wrap the integrand, seed the table with the two-point
trapezoid estimate `vfunc(-1) + vfunc(1)`, `neval = 2`, infinite `err`, and
run the refinement loop. -/
def rombergRun {A : Type} (ops : RealOps) (fn : ℚ → A → ℚ) (a b : FBound)
    (args : A) (epsabs epsrel : ℚ) (divmax : ℕ) (extrap : Bool) : RombergState :=
  let vfunc := wrap_func (map_interval ops fn a b) args
  whileLoop (ncond epsabs epsrel divmax) (nloop vfunc extrap) divmax
    { result := tset (fun _ _ => 0) 0 0 (vfunc (-1) + vfunc 1)
      n := 1
      neval := 2
      err := none }

/-- `romberg` (romberg.py): the terminal value
`y = result[n-1, n-1] if extrap else result[n-1, 0]`, the status
`2 * (err > max(epsabs, epsrel * y))`, and the diagnostics record. -/
def romberg {A : Type} (ops : RealOps) (fn : ℚ → A → ℚ) (a b : FBound) (args : A)
    (full_output : Bool) (epsabs epsrel : ℚ) (divmax : ℕ) (extrap : Bool) :
    ℚ × QuadratureInfo :=
  let fin := rombergRun ops fn a b args epsabs epsrel divmax extrap
  let y := if extrap then fin.result (fin.n - 1) (fin.n - 1) else fin.result (fin.n - 1) 0
  let status := 2 * (errGT fin.err (max epsabs (epsrel * y))).toNat
  (y, { err := fin.err, neval := fin.neval, status := status,
        info := if full_output then some fin.result else none })

/-- `tanhsinh_transform` (romberg.py): substitute
`x(t) = tanh(pi/2 * sinh t)` with weight
`w(t) = pi/2 * cosh t / cosh(pi/2 * sinh t)^2`. -/
def tanhsinh_transform {A : Type} (ops : RealOps) (fn : ℚ → A → ℚ) : ℚ → A → ℚ :=
  let xk := fun t => ops.tanh (ops.pi / 2 * ops.sinh t)
  let wk := fun t => ops.pi / 2 * ops.cosh t / ops.cosh (ops.pi / 2 * ops.sinh t) ^ 2
  fun t args => fn (xk t) args * wk t

/-- `get_tmax` (romberg.py): the inverse of the tanh-sinh map,
`sinh_inv (2/pi * tanh_inv xmax)` with the logarithmic closed forms. -/
def get_tmax (ops : RealOps) (xmax : ℚ) : ℚ :=
  let tanhinv := fun x : ℚ => 1 / 2 * ops.log ((1 + x) / (1 - x))
  let sinhinv := fun x : ℚ => ops.log (x + ops.sqrt (x ^ 2 + 1))
  sinhinv (2 / ops.pi * tanhinv xmax)

/-- `rombergts` (romberg.py): interval map, tanh-sinh transform, wrap, then
delegate to `romberg` on `[-tmax, tmax]` with extrapolation disabled, where
`tmax = get_tmax (1 - 10 * eps)`. -/
def rombergts {A : Type} (ops : RealOps) (fn : ℚ → A → ℚ) (a b : FBound) (args : A)
    (full_output : Bool) (epsabs epsrel : ℚ) (divmax : ℕ) : ℚ × QuadratureInfo :=
  let f1 := map_interval ops fn a b
  let f2 := tanhsinh_transform ops f1
  let func := wrap_func f2 args
  let tmax := get_tmax ops (1 - 10 * ops.eps)
  romberg ops (fun t (_ : Unit) => func t) (FBound.val (-tmax)) (FBound.val tmax) ()
    full_output epsabs epsrel divmax false

/-- `_romberg_jvp` (romberg.py).  The derived integrand `df`, built in the
source by forward-mode differentiation of `fn` in the parameter direction
only (`jax.jvp` with a zero tangent for `x`), is taken here as an explicit
argument standing for `x ↦ ∂f/∂p · dp`; general AD infrastructure is outside
the system per the spec.  Differentiation of a bound presumes it finite, so
the bounds are rationals here. -/
def _romberg_jvp {A : Type} (ops : RealOps) (fn df : ℚ → A → ℚ) (a b : ℚ) (args : A)
    (full_output : Bool) (epsabs epsrel : ℚ) (divmax : ℕ) (extrap : Bool)
    (adot bdot : ℚ) : (ℚ × QuadratureInfo) × (ℚ × QuadratureInfo) :=
  let p1 := romberg ops fn (FBound.val a) (FBound.val b) args full_output epsabs epsrel divmax extrap
  let p2 := romberg ops df (FBound.val a) (FBound.val b) args full_output epsabs epsrel divmax extrap
  (p1, (fn b args * bdot - fn a args * adot + p2.1, p2.2))

/-- `_rombergts_jvp` (romberg.py): the same rule for the tanh-sinh variant. -/
def _rombergts_jvp {A : Type} (ops : RealOps) (fn df : ℚ → A → ℚ) (a b : ℚ) (args : A)
    (full_output : Bool) (epsabs epsrel : ℚ) (divmax : ℕ)
    (adot bdot : ℚ) : (ℚ × QuadratureInfo) × (ℚ × QuadratureInfo) :=
  let p1 := rombergts ops fn (FBound.val a) (FBound.val b) args full_output epsabs epsrel divmax
  let p2 := rombergts ops df (FBound.val a) (FBound.val b) args full_output epsabs epsrel divmax
  (p1, (fn b args * bdot - fn a args * adot + p2.1, p2.2))

/-- The concrete `romberg` run witnessing the dead relative-tolerance branch:
integrand `x^2` on `[0, 1]`, `epsabs = 0`, `epsrel = 1`, `divmax = 3`, no
extrapolation, full table requested. -/
def c2run : ℚ × QuadratureInfo :=
  romberg qOps (fun x (_ : Unit) => x * x) (FBound.val 0) (FBound.val 1) () true 0 1 3 false

theorem two_mul_toNat_cases (b : Bool) : 2 * b.toNat = 0 ∨ 2 * b.toNat = 2 := by
  cases b <;> simp

theorem testBit_two_mul_toNat (b : Bool) :
    (2 * b.toNat).testBit 1 = b ∧ (2 * b.toNat).testBit 0 = false := by
  cases b <;> exact ⟨rfl, rfl⟩

theorem romberg_status_cases {A : Type} (ops : RealOps) (fn : ℚ → A → ℚ) (a b : FBound)
    (args : A) (fo : Bool) (ea er : ℚ) (dm : ℕ) (ex : Bool) :
    (romberg ops fn a b args fo ea er dm ex).2.status = 0 ∨
      (romberg ops fn a b args fo ea er dm ex).2.status = 2 :=
  two_mul_toNat_cases _

/-- C1 counterexample: with `divmax = 0` the loop never runs, the error
estimate is still infinite so the stopping tolerance is not met at
termination, yet bit 0 of the returned status is not set (the code raises
bit 1, returning status 2). -/
theorem romberg_status_bit0_counterexample :
    errGT (romberg qOps (fun x (_ : Unit) => x) (FBound.val 0) (FBound.val 1) () false
          (1 / 100) (1 / 100) 0 true).2.err
        (max (1 / 100)
          (1 / 100 * (romberg qOps (fun x (_ : Unit) => x) (FBound.val 0) (FBound.val 1) () false
            (1 / 100) (1 / 100) 0 true).1)) = true
      ∧ ((romberg qOps (fun x (_ : Unit) => x) (FBound.val 0) (FBound.val 1) () false
          (1 / 100) (1 / 100) 0 true).2.status).testBit 0 = false :=
  ⟨by with_unfolding_all rfl, by with_unfolding_all rfl⟩

/-- C1 (amended): the status returned by `romberg` has bit 1 (not bit 0) set
if and only if the final tolerance check fails, i.e.
`err > max(epsabs, epsrel * y)` with `y` the returned estimate (no absolute
value is taken); bit 0 is never set. -/
theorem romberg_status_bit1_iff {A : Type} (ops : RealOps) (fn : ℚ → A → ℚ) (a b : FBound)
    (args : A) (fo : Bool) (ea er : ℚ) (dm : ℕ) (ex : Bool) :
    (((romberg ops fn a b args fo ea er dm ex).2.status).testBit 1
        = errGT (romberg ops fn a b args fo ea er dm ex).2.err
            (max ea (er * (romberg ops fn a b args fo ea er dm ex).1)))
      ∧ ((romberg ops fn a b args fo ea er dm ex).2.status).testBit 0 = false :=
  testBit_two_mul_toNat _

/-- C2 (code-bug evidence): on the integrand `x^2` over `[0, 1]` with
`epsabs = 0`, `epsrel = 1`, `divmax = 3` and no extrapolation, the loop runs
all three levels (`neval = 9 = 2^3 + 1`) even though already after level 1
the error estimate `|table[1][0] - table[0][0]|` is at most
`max(epsabs, epsrel * |table[1][0]|)` for the most recently computed entry
`table[1][0]`: the relative tolerance in `ncond` multiplies the unwritten
(zero) entry `result[n, n]`, so it can never stop the loop. -/
theorem romberg_relative_tolerance_dead :
    c2run.2.neval = 9
      ∧ (c2run.2.info.map fun t => decide (|t 1 0 - t 0 0| ≤ max 0 (1 * |t 1 0|)))
          = some true :=
  ⟨by with_unfolding_all rfl, by with_unfolding_all rfl⟩

/-- C3 counterexample: status 1 (bit 0 alone) decodes to the
"terminated normally" message, not to the tolerance-not-achieved message. -/
theorem decode_status_bit0_counterexample :
    _decode_status 1 = messages.get! 0 ++ "\n\n" ∧ messages.get! 0 ≠ messages.get! 1 :=
  ⟨by decide, by decide⟩

/-- C3 (amended): `_decode_status` concatenates, for every set bit `i < 5`
of a nonzero 5-bit mask, the message of dict key `i`: bit 0 carries the
"terminated normally" text, bit 1 the tolerance-not-achieved (maximum
subdivisions) text, and bits 2-4 the roundoff, bad-integrand and
non-convergence texts, while the probable-divergence message of key 5 is
assigned to no bit of a 5-bit status.  Status 0 decodes to exactly the
normal-termination message and every status 0-31 decodes to a non-empty
message. -/
theorem decode_status_table :
    (∀ s, s < 32 → _decode_status s ≠ "")
      ∧ _decode_status 0 = messages.get! 0
      ∧ (∀ i, i < 5 → _decode_status (2 ^ i) = messages.get! i ++ "\n\n") := by
  refine ⟨by decide, by decide, by decide⟩

theorem decode_status_table_witness :
    (7 : ℕ) < 32 ∧ _decode_status 7 ≠ "" ∧ (2 : ℕ) < 5
      ∧ _decode_status (2 ^ 2) = messages.get! 2 ++ "\n\n" :=
  ⟨by decide, decode_status_table.1 7 (by decide), by decide,
    decode_status_table.2.2 2 (by decide)⟩

/-- C7: the custom derivative rule of `romberg` and of the tanh-sinh variant
returns, as tangent of the value, `f(b)·bdot - f(a)·adot` plus the value of a
fresh invocation of the same integrator on the parameter-directional
derivative integrand `df` with the same bounds, tolerances and level budget,
and returns as tangent of the diagnostics exactly the diagnostics record of
that recursive invocation; the primal output is the ordinary integral. -/
theorem romberg_jvp_leibniz {A : Type} (ops : RealOps) (fn df : ℚ → A → ℚ) (a b : ℚ)
    (args : A) (fo : Bool) (ea er : ℚ) (dm : ℕ) (ex : Bool) (adot bdot : ℚ) :
    ((_romberg_jvp ops fn df a b args fo ea er dm ex adot bdot).1
        = romberg ops fn (FBound.val a) (FBound.val b) args fo ea er dm ex
      ∧ (_romberg_jvp ops fn df a b args fo ea er dm ex adot bdot).2.1
          = fn b args * bdot - fn a args * adot
            + (romberg ops df (FBound.val a) (FBound.val b) args fo ea er dm ex).1
      ∧ (_romberg_jvp ops fn df a b args fo ea er dm ex adot bdot).2.2
          = (romberg ops df (FBound.val a) (FBound.val b) args fo ea er dm ex).2)
    ∧ ((_rombergts_jvp ops fn df a b args fo ea er dm adot bdot).1
        = rombergts ops fn (FBound.val a) (FBound.val b) args fo ea er dm
      ∧ (_rombergts_jvp ops fn df a b args fo ea er dm adot bdot).2.1
          = fn b args * bdot - fn a args * adot
            + (rombergts ops df (FBound.val a) (FBound.val b) args fo ea er dm).1
      ∧ (_rombergts_jvp ops fn df a b args fo ea er dm adot bdot).2.2
          = (rombergts ops df (FBound.val a) (FBound.val b) args fo ea er dm).2) :=
  ⟨⟨rfl, rfl, rfl⟩, ⟨rfl, rfl, rfl⟩⟩

/-- C8: the tanh-sinh entry point returns exactly the result of plain
`romberg` with extrapolation disabled on the interval-mapped integrand
composed with the tanh-sinh substitution
`h(t) = g(tanh(pi/2 sinh t)) * (pi/2 cosh t / cosh(pi/2 sinh t)^2)` (wrapped
with the usual argument binding and finiteness mask), over
`[-tmax, tmax]` with `tmax = asinh((2/pi) * atanh(1 - 10 eps))` written with
the logarithmic closed forms; everything else is passed through unchanged. -/
theorem rombergts_delegation {A : Type} (ops : RealOps) (fn : ℚ → A → ℚ) (a b : FBound)
    (args : A) (fo : Bool) (ea er : ℚ) (dm : ℕ) :
    rombergts ops fn a b args fo ea er dm
      = romberg ops
          (fun t (_ : Unit) =>
            wrap_func
              (fun t2 ar =>
                map_interval ops fn a b (ops.tanh (ops.pi / 2 * ops.sinh t2)) ar
                  * (ops.pi / 2 * ops.cosh t2 / ops.cosh (ops.pi / 2 * ops.sinh t2) ^ 2))
              args t)
          (FBound.val (-(ops.log (2 / ops.pi
              * (1 / 2 * ops.log ((1 + (1 - 10 * ops.eps)) / (1 - (1 - 10 * ops.eps))))
            + ops.sqrt ((2 / ops.pi
              * (1 / 2 * ops.log ((1 + (1 - 10 * ops.eps)) / (1 - (1 - 10 * ops.eps))))) ^ 2
                + 1)))))
          (FBound.val (ops.log (2 / ops.pi
              * (1 / 2 * ops.log ((1 + (1 - 10 * ops.eps)) / (1 - (1 - 10 * ops.eps))))
            + ops.sqrt ((2 / ops.pi
              * (1 / 2 * ops.log ((1 + (1 - 10 * ops.eps)) / (1 - (1 - 10 * ops.eps))))) ^ 2
                + 1))))
          () fo ea er dm false :=
  rfl

/-- C10: for every input the status returned by `romberg` (and hence by
`rombergts`) is 0 or 2 - only the bit-1 diagnostic from the final tolerance
check is ever raised - and the two decodable statuses produce exactly the
normal-termination message (status 0) and the maximum-subdivisions message
(status 2), neither of which is the probable-divergence message registered
at dict key 5. -/
theorem romberg_status_zero_or_two {A : Type} (ops : RealOps) (fn : ℚ → A → ℚ) (a b : FBound)
    (args : A) (fo : Bool) (ea er : ℚ) (dm : ℕ) (ex : Bool) :
    ((romberg ops fn a b args fo ea er dm ex).2.status = 0 ∨
        (romberg ops fn a b args fo ea er dm ex).2.status = 2)
      ∧ ((rombergts ops fn a b args fo ea er dm).2.status = 0 ∨
          (rombergts ops fn a b args fo ea er dm).2.status = 2)
      ∧ _decode_status 0 = messages.get! 0
      ∧ _decode_status 2 = messages.get! 1 ++ "\n\n"
      ∧ messages.get! 5 ≠ messages.get! 0
      ∧ messages.get! 5 ≠ messages.get! 1 :=
  ⟨two_mul_toNat_cases _, two_mul_toNat_cases _, by decide, by decide, by decide, by decide⟩

theorem tset_same (t : ℕ → ℕ → ℚ) (i j : ℕ) (v : ℚ) : tset t i j v i j = v := by
  simp [tset]

theorem whileLoop_inv {S : Type} (cond : S → Bool) (body : S → S) (P : S → Prop)
    (hbody : ∀ s, P s → cond s = true → P (body s)) :
    ∀ fuel s, P s → P (whileLoop cond body fuel s) := by
  intro fuel
  induction fuel with
  | zero => intro s hs; exact hs
  | succ k ih =>
    intro s hs
    rw [whileLoop]
    by_cases h : cond s = true
    · rw [if_pos h]; exact ih (body s) (hbody s hs h)
    · rw [if_neg h]; exact hs

theorem nloop_n (v : ℚ → ℚ) (ex : Bool) (s : RombergState) : (nloop v ex s).n = s.n + 1 := by
  cases ex <;> rfl

theorem nloop_neval (v : ℚ → ℚ) (ex : Bool) (s : RombergState) :
    (nloop v ex s).neval = s.neval + 2 ^ s.n / 2 := by
  cases ex <;> rfl

theorem two_pow_div_two {n : ℕ} (h : 1 ≤ n) : 2 ^ n / 2 = 2 ^ (n - 1) := by
  obtain ⟨k, rfl⟩ := Nat.exists_eq_add_of_le h
  rw [pow_add, pow_one, show 1 + k - 1 = k from by omega]
  exact Nat.mul_div_cancel_left _ (by norm_num)

theorem sum_range_two_pow (m : ℕ) : (∑ k in Finset.range m, 2 ^ k) = 2 ^ m - 1 := by
  induction m with
  | zero => rfl
  | succ k ih =>
    have h1 : 1 ≤ 2 ^ k := Nat.one_le_pow _ _ (by norm_num)
    rw [Finset.sum_range_succ, ih, pow_succ]
    omega

theorem foriAux_sum (g : ℕ → ℚ) :
    ∀ (k i : ℕ) (acc : ℚ),
      foriAux (fun j s => s + g j) k i acc = acc + ∑ j in Finset.range k, g (i + j) := by
  intro k
  induction k with
  | zero => intro i acc; simp [foriAux]
  | succ m ih =>
    intro i acc
    calc foriAux (fun j s => s + g j) (m + 1) i acc
        = foriAux (fun j s => s + g j) m (i + 1) (acc + g i) := rfl
      _ = (acc + g i) + ∑ j in Finset.range m, g (i + 1 + j) := ih (i + 1) (acc + g i)
      _ = acc + ((∑ j in Finset.range m, g (i + (j + 1))) + g (i + 0)) := by
          rw [Finset.sum_congr rfl fun j _ => show g (i + 1 + j) = g (i + (j + 1)) from by
            congr 1
            omega]
          rw [show g (i + 0) = g i from by rw [Nat.add_zero]]
          ring
      _ = acc + ∑ j in Finset.range (m + 1), g (i + j) := by
          rw [show (∑ j in Finset.range (m + 1), g (i + j))
              = (∑ j in Finset.range m, g (i + (j + 1))) + g (i + 0) from
            Finset.sum_range_succ' (fun j => g (i + j)) m]

theorem fori_loop_sloop_sum (v : ℚ → ℚ) (h : ℚ) (N : ℕ) :
    fori_loop 1 (N + 1) (sloopBody v h) 0
      = ∑ i in Finset.Icc 1 N, v (-1 + h * (2 * (i : ℚ) - 1)) := by
  have e1 : fori_loop 1 (N + 1) (sloopBody v h) 0
      = foriAux (fun j s => s + v (-1 + h * (2 * (j : ℚ) - 1))) N 1 0 := rfl
  rw [e1, foriAux_sum, zero_add, ← Nat.Ico_succ_right, Finset.sum_Ico_eq_sum_range]
  norm_num

theorem mfold_row_ne (n : ℕ) :
    ∀ (k i : ℕ) (t : ℕ → ℕ → ℚ) (x y : ℕ), x ≠ n →
      foriAux (mloopBody n) k i t x y = t x y := by
  intro k
  induction k with
  | zero => intro i t x y hx; rfl
  | succ m ih =>
    intro i t x y hx
    calc foriAux (mloopBody n) (m + 1) i t x y
        = foriAux (mloopBody n) m (i + 1) (mloopBody n i t) x y := rfl
      _ = (mloopBody n i t) x y := ih (i + 1) _ x y hx
      _ = t x y := by
          simp [mloopBody, tset, hx]

theorem mfold_col_lt (n : ℕ) :
    ∀ (k i : ℕ) (t : ℕ → ℕ → ℚ) (y : ℕ), y < i →
      foriAux (mloopBody n) k i t n y = t n y := by
  intro k
  induction k with
  | zero => intro i t y hy; rfl
  | succ m ih =>
    intro i t y hy
    calc foriAux (mloopBody n) (m + 1) i t n y
        = foriAux (mloopBody n) m (i + 1) (mloopBody n i t) n y := rfl
      _ = (mloopBody n i t) n y := ih (i + 1) _ y (by omega)
      _ = t n y := by
          simp [mloopBody, tset, Nat.ne_of_lt hy]

theorem mfold_rec (n : ℕ) (hn : 1 ≤ n) :
    ∀ (k i : ℕ) (t : ℕ → ℕ → ℚ), 1 ≤ i →
      ∀ m, i ≤ m → m < i + k →
        foriAux (mloopBody n) k i t n m
          = foriAux (mloopBody n) k i t n (m - 1)
            + (foriAux (mloopBody n) k i t n (m - 1)
                - foriAux (mloopBody n) k i t (n - 1) (m - 1)) / (4 ^ m - 1) := by
  intro k
  induction k with
  | zero => intro i t hi m him hm; omega
  | succ kk ih =>
    intro i t hi m him hm
    by_cases hmi : m = i
    · rw [hmi]
      have e1 : ∀ x y, foriAux (mloopBody n) (kk + 1) i t x y
          = foriAux (mloopBody n) kk (i + 1) (mloopBody n i t) x y := fun x y => rfl
      simp only [e1]
      rw [mfold_col_lt n kk (i + 1) (mloopBody n i t) i (by omega)]
      rw [mfold_col_lt n kk (i + 1) (mloopBody n i t) (i - 1) (by omega)]
      rw [mfold_row_ne n kk (i + 1) (mloopBody n i t) (n - 1) (i - 1) (by omega)]
      have hv1 : (mloopBody n i t) n i
          = t n (i - 1) + 1 / (4 ^ i - 1 : ℚ) * (t n (i - 1) - t (n - 1) (i - 1)) := by
        simp [mloopBody, tset]
      have hv2 : (mloopBody n i t) n (i - 1) = t n (i - 1) := by
        simp [mloopBody, tset, (show i - 1 ≠ i from by omega)]
      have hv3 : (mloopBody n i t) (n - 1) (i - 1) = t (n - 1) (i - 1) := by
        simp [mloopBody, tset, (show n - 1 ≠ n from by omega)]
      rw [hv1, hv2, hv3]
      ring
    · have e1 : ∀ x y, foriAux (mloopBody n) (kk + 1) i t x y
          = foriAux (mloopBody n) kk (i + 1) (mloopBody n i t) x y := fun x y => rfl
      simp only [e1]
      exact ih (i + 1) (mloopBody n i t) (by omega) m (by omega) (by omega)

theorem rombergRun_neval {A : Type} (ops : RealOps) (fn : ℚ → A → ℚ) (a b : FBound)
    (args : A) (ea er : ℚ) (dm : ℕ) (ex : Bool) :
    1 ≤ (rombergRun ops fn a b args ea er dm ex).n ∧
      (rombergRun ops fn a b args ea er dm ex).neval
        = 2 ^ ((rombergRun ops fn a b args ea er dm ex).n - 1) + 1 := by
  refine whileLoop_inv _ _ (fun s : RombergState => 1 ≤ s.n ∧ s.neval = 2 ^ (s.n - 1) + 1)
    ?_ dm _ ⟨le_refl 1, rfl⟩
  intro s hs _
  constructor
  · rw [nloop_n]; omega
  · have h2 : 2 ^ (s.n - 1) * 2 = 2 ^ s.n := by
      rw [← pow_succ]
      congr 1
      omega
    rw [nloop_neval, nloop_n, hs.2, two_pow_div_two hs.1]
    simp only [Nat.add_sub_cancel]
    omega

/-- C4: in every execution of `romberg` the reported evaluation count is
exactly `2 + sum of 2^(k-1) over the completed levels k = 1..n`, where `n` is
the number of completed refinement levels (the terminal loop index minus
one): the count starts at 2 for the two endpoint samples and each level adds
exactly `2^(n-1)` midpoint evaluations. -/
theorem romberg_neval_invariant {A : Type} (ops : RealOps) (fn : ℚ → A → ℚ) (a b : FBound)
    (args : A) (fo : Bool) (ea er : ℚ) (dm : ℕ) (ex : Bool) :
    (romberg ops fn a b args fo ea er dm ex).2.neval
      = 2 + ∑ k in Finset.range ((rombergRun ops fn a b args ea er dm ex).n - 1), 2 ^ k := by
  have key := rombergRun_neval ops fn a b args ea er dm ex
  have h1 : 1 ≤ 2 ^ ((rombergRun ops fn a b args ea er dm ex).n - 1) :=
    Nat.one_le_pow _ _ (by norm_num)
  rw [show (romberg ops fn a b args fo ea er dm ex).2.neval
      = (rombergRun ops fn a b args ea er dm ex).neval from rfl, key.2, sum_range_two_pow]
  omega

/-- C5: at every refinement level `n ≥ 1` the new trapezoid estimate is
written by the reuse recurrence
`row[n][0] = row[n-1][0] / 2 + h * sum over i = 1..2^(n-1) of g(-1 + h(2i-1))`
with step `h = (b - a) / 2^n = 2 / 2^n` on the canonical interval, and the
evaluation count grows by exactly the `2^(n-1)` newly introduced midpoints. -/
theorem romberg_trapezoid_recurrence (v : ℚ → ℚ) (ex : Bool) (s : RombergState)
    (h1 : 1 ≤ s.n) :
    (nloop v ex s).result s.n 0
        = s.result (s.n - 1) 0 / 2
          + 2 / 2 ^ s.n
            * ∑ i in Finset.Icc (1 : ℕ) (2 ^ (s.n - 1)),
                v (-1 + 2 / 2 ^ s.n * (2 * (i : ℚ) - 1))
      ∧ (nloop v ex s).neval = s.neval + 2 ^ (s.n - 1) := by
  have hdiv : 2 ^ s.n / 2 = 2 ^ (s.n - 1) := two_pow_div_two h1
  have htrap : trapSet v s s.n 0
      = s.result (s.n - 1) 0 / 2
        + 2 / 2 ^ s.n
          * ∑ i in Finset.Icc (1 : ℕ) (2 ^ (s.n - 1)),
              v (-1 + 2 / 2 ^ s.n * (2 * (i : ℚ) - 1)) := by
    rw [trapSet, tset_same, hdiv, fori_loop_sloop_sum]
    ring
  constructor
  · cases ex
    · exact htrap
    · have e : (nloop v true s).result s.n 0
          = foriAux (mloopBody s.n) s.n 1 (trapSet v s) s.n 0 := rfl
      rw [e, mfold_col_lt s.n s.n 1 (trapSet v s) 0 (by omega)]
      exact htrap
  · rw [nloop_neval, hdiv]

theorem romberg_trapezoid_recurrence_witness :
    1 ≤ (1 : ℕ) ∧
      ((nloop (fun x => x) false ⟨fun _ _ => 0, 1, 2, none⟩).result 1 0
          = (0 : ℚ) / 2
            + 2 / 2 ^ 1
              * ∑ i in Finset.Icc (1 : ℕ) (2 ^ 0),
                  (fun x : ℚ => x) (-1 + 2 / 2 ^ 1 * (2 * (i : ℚ) - 1))
        ∧ (nloop (fun x => x) false ⟨fun _ _ => 0, 1, 2, none⟩).neval = 2 + 2 ^ 0) :=
  ⟨by decide,
    romberg_trapezoid_recurrence (fun x => x) false ⟨fun _ _ => 0, 1, 2, none⟩ (by decide)⟩

/-- C6: with extrapolation enabled, level `n` fills columns `m = 1..n` by the
Richardson rule
`row[n][m] = row[n][m-1] + (row[n][m-1] - row[n-1][m-1]) / (4^m - 1)` and
sets the error estimate to `|row[n][n] - row[n][n-1]|`; with it disabled the
error estimate is `|row[n][0] - row[n-1][0]|`; and the value returned by
`romberg` is `row[n-1][n-1]` when extrapolating, else `row[n-1][0]`, for the
terminal row index `n`. -/
theorem romberg_extrapolation_rule {A : Type} (v : ℚ → ℚ) (s : RombergState) (h1 : 1 ≤ s.n)
    (ops : RealOps) (fn : ℚ → A → ℚ) (a b : FBound) (args : A) (fo : Bool)
    (ea er : ℚ) (dm : ℕ) :
    (∀ m, 1 ≤ m → m ≤ s.n →
        (nloop v true s).result s.n m
          = (nloop v true s).result s.n (m - 1)
            + ((nloop v true s).result s.n (m - 1)
                - (nloop v true s).result (s.n - 1) (m - 1)) / (4 ^ m - 1))
      ∧ (nloop v true s).err
          = some |(nloop v true s).result s.n s.n - (nloop v true s).result s.n (s.n - 1)|
      ∧ (nloop v false s).err
          = some |(nloop v false s).result s.n 0 - (nloop v false s).result (s.n - 1) 0|
      ∧ (romberg ops fn a b args fo ea er dm true).1
          = (rombergRun ops fn a b args ea er dm true).result
              ((rombergRun ops fn a b args ea er dm true).n - 1)
              ((rombergRun ops fn a b args ea er dm true).n - 1)
      ∧ (romberg ops fn a b args fo ea er dm false).1
          = (rombergRun ops fn a b args ea er dm false).result
              ((rombergRun ops fn a b args ea er dm false).n - 1) 0 := by
  refine ⟨?_, rfl, rfl, rfl, rfl⟩
  intro m hm1 hm2
  exact mfold_rec s.n h1 s.n 1 (trapSet v s) (le_refl 1) m hm1 (by omega)

theorem romberg_extrapolation_rule_witness :
    1 ≤ (1 : ℕ) ∧ 1 ≤ (1 : ℕ) ∧ (1 : ℕ) ≤ 1 ∧
      (nloop (fun x => x) true ⟨fun _ _ => 0, 1, 2, none⟩).result 1 1
        = (nloop (fun x => x) true ⟨fun _ _ => 0, 1, 2, none⟩).result 1 0
          + ((nloop (fun x => x) true ⟨fun _ _ => 0, 1, 2, none⟩).result 1 0
              - (nloop (fun x => x) true ⟨fun _ _ => 0, 1, 2, none⟩).result 0 0) / (4 ^ 1 - 1) :=
  ⟨by decide, by decide, by decide,
    (romberg_extrapolation_rule (fun x => x) ⟨fun _ _ => 0, 1, 2, none⟩ (by decide)
      qOps (fun x (_ : Unit) => x) (FBound.val 0) (FBound.val 1) () false 0 0 0).1
      1 (by decide) (by decide)⟩

theorem blt_cases_of_ne {a b : FBound} (h : a ≠ b) :
    (FBound.blt a b = true ∧ FBound.blt b a = false)
      ∨ (FBound.blt a b = false ∧ FBound.blt b a = true) := by
  cases a with
  | ninf =>
    cases b with
    | ninf => exact absurd rfl h
    | val r => exact Or.inl ⟨rfl, rfl⟩
    | pinf => exact Or.inl ⟨rfl, rfl⟩
  | val q =>
    cases b with
    | ninf => exact Or.inr ⟨rfl, rfl⟩
    | val r =>
      have hqr : q ≠ r := fun he => h (by rw [he])
      rcases lt_trichotomy q r with h1 | h1 | h1
      · exact Or.inl ⟨decide_eq_true h1, decide_eq_false (lt_asymm h1)⟩
      · exact absurd h1 hqr
      · exact Or.inr ⟨decide_eq_false (lt_asymm h1), decide_eq_true h1⟩
    | pinf => exact Or.inl ⟨rfl, rfl⟩
  | pinf =>
    cases b with
    | ninf => exact Or.inr ⟨rfl, rfl⟩
    | val r => exact Or.inr ⟨rfl, rfl⟩
    | pinf => exact absurd rfl h

theorem bmin_comm (a b : FBound) : bmin a b = bmin b a := by
  by_cases h : a = b
  · rw [h]
  · rcases blt_cases_of_ne h with ⟨h1, h2⟩ | ⟨h1, h2⟩ <;> simp [bmin, h1, h2]

theorem bmax_comm (a b : FBound) : bmax a b = bmax b a := by
  by_cases h : a = b
  · rw [h]
  · rcases blt_cases_of_ne h with ⟨h1, h2⟩ | ⟨h1, h2⟩ <;> simp [bmax, h1, h2]

theorem map_interval_swap {A : Type} (ops : RealOps) (fn : ℚ → A → ℚ) (a b : FBound)
    (h : a ≠ b) (x : ℚ) (args : A) :
    map_interval ops fn b a x args = - map_interval ops fn a b x args := by
  rcases blt_cases_of_ne h with ⟨h1, h2⟩ | ⟨h1, h2⟩ <;>
    simp only [map_interval, h1, h2, bmin_comm b a, bmax_comm b a, if_true, if_false,
      Bool.false_eq_true, Bool.true_eq_false] <;>
    ring

theorem wrap_func_neg {A : Type} (g g2 : ℚ → A → ℚ) (args : A)
    (hg : ∀ x2 ar, g2 x2 ar = - g x2 ar) (x : ℚ) :
    wrap_func g2 args x = - wrap_func g args x := by
  simp [wrap_func, isfiniteQ, hg]

theorem foriAux_sloop_neg (v v2 : ℚ → ℚ) (hv : ∀ x, v2 x = - v x) (h : ℚ) :
    ∀ (k i : ℕ) (acc acc2 : ℚ), acc2 = - acc →
      foriAux (sloopBody v2 h) k i acc2 = - foriAux (sloopBody v h) k i acc := by
  intro k
  induction k with
  | zero => intro i acc acc2 ha; simpa [foriAux] using ha
  | succ m ih =>
    intro i acc acc2 ha
    have hb : sloopBody v2 h i acc2 = - sloopBody v h i acc := by
      simp only [sloopBody, ha, hv]
      ring
    exact ih (i + 1) _ _ hb

theorem mfold_neg (n : ℕ) :
    ∀ (k i : ℕ) (t t2 : ℕ → ℕ → ℚ), (∀ x y, t2 x y = - t x y) →
      ∀ x y, foriAux (mloopBody n) k i t2 x y = - foriAux (mloopBody n) k i t x y := by
  intro k
  induction k with
  | zero => intro i t t2 ht x y; exact ht x y
  | succ m ih =>
    intro i t t2 ht x y
    have e1 : foriAux (mloopBody n) (m + 1) i t2 x y
        = foriAux (mloopBody n) m (i + 1) (mloopBody n i t2) x y := rfl
    have e2 : foriAux (mloopBody n) (m + 1) i t x y
        = foriAux (mloopBody n) m (i + 1) (mloopBody n i t) x y := rfl
    rw [e1, e2]
    apply ih (i + 1)
    intro x2 y2
    simp only [mloopBody, tset]
    by_cases hc : x2 = n ∧ y2 = i
    · rw [if_pos hc, if_pos hc]
      simp only [ht]
      ring
    · rw [if_neg hc, if_neg hc]
      exact ht x2 y2

theorem trapSet_neg (v v2 : ℚ → ℚ) (hv : ∀ x, v2 x = - v x) (s t : RombergState)
    (hn : t.n = s.n) (hres : ∀ x y, t.result x y = - s.result x y) :
    ∀ x y, trapSet v2 t x y = - trapSet v s x y := by
  intro x y
  have hflo : ∀ (N : ℕ) (hq : ℚ),
      fori_loop 1 N (sloopBody v2 hq) 0 = - fori_loop 1 N (sloopBody v hq) 0 := by
    intro N hq
    exact foriAux_sloop_neg v v2 hv hq (N - 1) 1 0 0 (by ring)
  simp only [trapSet, tset, hn]
  by_cases hc : x = s.n ∧ y = 0
  · rw [if_pos hc, if_pos hc]
    simp only [hres, hflo]
    ring
  · rw [if_neg hc, if_neg hc]
    exact hres x y

theorem nloop_neg (v v2 : ℚ → ℚ) (hv : ∀ x, v2 x = - v x) (ex : Bool) (s t : RombergState)
    (hn : t.n = s.n) (hne : t.neval = s.neval) (herr : t.err = s.err)
    (hres : ∀ x y, t.result x y = - s.result x y) :
    (nloop v2 ex t).n = (nloop v ex s).n
      ∧ (nloop v2 ex t).neval = (nloop v ex s).neval
      ∧ (nloop v2 ex t).err = (nloop v ex s).err
      ∧ ∀ x y, (nloop v2 ex t).result x y = - (nloop v ex s).result x y := by
  have htrap := trapSet_neg v v2 hv s t hn hres
  cases ex
  · refine ⟨by rw [nloop_n, nloop_n, hn], by rw [nloop_neval, nloop_neval, hn, hne], ?_, ?_⟩
    · show some |trapSet v2 t t.n 0 - trapSet v2 t (t.n - 1) 0|
        = some |trapSet v s s.n 0 - trapSet v s (s.n - 1) 0|
      rw [hn, htrap, htrap]
      congr 1
      rw [neg_sub_neg, abs_sub_comm]
    · intro x y
      exact htrap x y
  · have hfold : ∀ x y,
        foriAux (mloopBody s.n) s.n 1 (trapSet v2 t) x y
          = - foriAux (mloopBody s.n) s.n 1 (trapSet v s) x y :=
      mfold_neg s.n s.n 1 _ _ htrap
    have e : ∀ x y, fori_loop 1 (s.n + 1) (mloopBody s.n) (trapSet v2 t) x y
        = - fori_loop 1 (s.n + 1) (mloopBody s.n) (trapSet v s) x y := fun x y => hfold x y
    refine ⟨by rw [nloop_n, nloop_n, hn], by rw [nloop_neval, nloop_neval, hn, hne], ?_, ?_⟩
    · show some |fori_loop 1 (t.n + 1) (mloopBody t.n) (trapSet v2 t) t.n t.n
            - fori_loop 1 (t.n + 1) (mloopBody t.n) (trapSet v2 t) t.n (t.n - 1)|
        = some |fori_loop 1 (s.n + 1) (mloopBody s.n) (trapSet v s) s.n s.n
            - fori_loop 1 (s.n + 1) (mloopBody s.n) (trapSet v s) s.n (s.n - 1)|
      rw [hn, e, e]
      congr 1
      rw [neg_sub_neg, abs_sub_comm]
    · intro x y
      show fori_loop 1 (t.n + 1) (mloopBody t.n) (trapSet v2 t) x y
        = - fori_loop 1 (s.n + 1) (mloopBody s.n) (trapSet v s) x y
      rw [hn]
      exact e x y

theorem nloop_upper_zero (v : ℚ → ℚ) (ex : Bool) (s : RombergState)
    (h6 : ∀ x y, s.n ≤ x → s.result x y = 0) :
    ∀ x y, (nloop v ex s).n ≤ x → (nloop v ex s).result x y = 0 := by
  intro x y hx
  rw [nloop_n] at hx
  have htr : trapSet v s x y = 0 := by
    simp only [trapSet, tset]
    rw [if_neg (by omega : ¬(x = s.n ∧ y = 0))]
    exact h6 x y (by omega)
  cases ex
  · exact htr
  · show fori_loop 1 (s.n + 1) (mloopBody s.n) (trapSet v s) x y = 0
    have e : fori_loop 1 (s.n + 1) (mloopBody s.n) (trapSet v s) x y
        = foriAux (mloopBody s.n) s.n 1 (trapSet v s) x y := rfl
    rw [e, mfold_row_ne s.n s.n 1 (trapSet v s) x y (by omega)]
    exact htr

theorem whileLoop_neg (v v2 : ℚ → ℚ) (hv : ∀ x, v2 x = - v x) (ex : Bool)
    (ea er : ℚ) (dm : ℕ) :
    ∀ (fuel : ℕ) (s t : RombergState),
      t.n = s.n → t.neval = s.neval → t.err = s.err →
      (∀ x y, t.result x y = - s.result x y) →
      1 ≤ s.n → (∀ x y, s.n ≤ x → s.result x y = 0) →
      (whileLoop (ncond ea er dm) (nloop v2 ex) fuel t).n
          = (whileLoop (ncond ea er dm) (nloop v ex) fuel s).n
        ∧ ∀ x y,
            (whileLoop (ncond ea er dm) (nloop v2 ex) fuel t).result x y
              = - (whileLoop (ncond ea er dm) (nloop v ex) fuel s).result x y := by
  intro fuel
  induction fuel with
  | zero => intro s t h1 h2 h3 h4 h5 h6; exact ⟨h1, h4⟩
  | succ m ih =>
    intro s t h1 h2 h3 h4 h5 h6
    have hcond : ncond ea er dm t = ncond ea er dm s := by
      simp only [ncond, h1, h3]
      by_cases hlt : s.n < dm + 1
      · rw [h4, h6 s.n s.n (le_refl _)]
        norm_num
      · simp [hlt]
    rw [whileLoop, whileLoop, hcond]
    by_cases hc : ncond ea er dm s = true
    · rw [if_pos hc, if_pos hc]
      obtain ⟨hb1, hb2, hb3, hb4⟩ := nloop_neg v v2 hv ex s t h1 h2 h3 h4
      refine ih (nloop v ex s) (nloop v2 ex t) hb1 hb2 hb3 hb4 ?_ ?_
      · rw [nloop_n]; omega
      · exact nloop_upper_zero v ex s h6
    · rw [if_neg hc, if_neg hc]
      exact ⟨h1, h4⟩

theorem rombergRun_swap {A : Type} (ops : RealOps) (fn : ℚ → A → ℚ) (a b : FBound)
    (args : A) (ea er : ℚ) (dm : ℕ) (ex : Bool) (h : a ≠ b) :
    (rombergRun ops fn b a args ea er dm ex).n = (rombergRun ops fn a b args ea er dm ex).n
      ∧ ∀ x y, (rombergRun ops fn b a args ea er dm ex).result x y
          = - (rombergRun ops fn a b args ea er dm ex).result x y := by
  have hv : ∀ x, wrap_func (map_interval ops fn b a) args x
      = - wrap_func (map_interval ops fn a b) args x := fun x =>
    wrap_func_neg (map_interval ops fn a b) (map_interval ops fn b a) args
      (fun x2 ar => map_interval_swap ops fn a b h x2 ar) x
  refine whileLoop_neg _ _ hv ex ea er dm dm _ _ rfl rfl rfl ?_ (le_refl 1) ?_
  · intro x y
    simp only [tset]
    by_cases hc : x = 0 ∧ y = 0
    · rw [if_pos hc, if_pos hc, hv, hv]
      ring
    · rw [if_neg hc, if_neg hc]
      norm_num
  · intro x y hx
    have hx1 : 1 ≤ x := hx
    simp only [tset]
    rw [if_neg (by omega : ¬(x = 0 ∧ y = 0))]

/-- C9: for any integrand, parameters, tolerances and level budget, swapping
two distinct bounds negates the returned integral estimate,
`romberg(f, b, a) = -romberg(f, a, b)`: the interval mapper normalizes the
bounds to min/max order and flips the sign of every mapped sample. -/
theorem romberg_swap_bounds_neg {A : Type} (ops : RealOps) (fn : ℚ → A → ℚ) (a b : FBound)
    (args : A) (fo : Bool) (ea er : ℚ) (dm : ℕ) (ex : Bool) (h : a ≠ b) :
    (romberg ops fn b a args fo ea er dm ex).1
      = - (romberg ops fn a b args fo ea er dm ex).1 := by
  obtain ⟨hn, hres⟩ := rombergRun_swap ops fn a b args ea er dm ex h
  cases ex
  · show (rombergRun ops fn b a args ea er dm false).result
        ((rombergRun ops fn b a args ea er dm false).n - 1) 0
      = - (rombergRun ops fn a b args ea er dm false).result
          ((rombergRun ops fn a b args ea er dm false).n - 1) 0
    rw [hn]
    exact hres _ 0
  · show (rombergRun ops fn b a args ea er dm true).result
        ((rombergRun ops fn b a args ea er dm true).n - 1)
        ((rombergRun ops fn b a args ea er dm true).n - 1)
      = - (rombergRun ops fn a b args ea er dm true).result
          ((rombergRun ops fn a b args ea er dm true).n - 1)
          ((rombergRun ops fn a b args ea er dm true).n - 1)
    rw [hn]
    exact hres _ _

theorem romberg_swap_bounds_neg_witness :
    FBound.val 0 ≠ FBound.val 1 ∧
      (romberg qOps (fun x (_ : Unit) => x) (FBound.val 1) (FBound.val 0) () false 0 0 1 true).1
        = - (romberg qOps (fun x (_ : Unit) => x) (FBound.val 0) (FBound.val 1) () false
              0 0 1 true).1 :=
  ⟨by decide,
    romberg_swap_bounds_neg qOps (fun x (_ : Unit) => x) (FBound.val 0) (FBound.val 1) () false
      0 0 1 true (by decide)⟩

end Quadax
